import Mathlib

/-
  Verification development for the FeiniuBus/cache repository
  (an in-process, size-bounded cache store with load deduplication).

  Shallow embedding of:
    - sinks.go            (Sink variants: stringSink, byteViewSink,
                            allocBytesSink, jsonSink)
    - store.go            (Store.Get pipeline, lookupCache, populateCache)
    - singleflight/singleflight.go  (duplicate suppression, sequentialised)
    - the cache wrapper file (cache struct: add/get/removeOldest/bytes/items)

  Modelling conventions:
    - Go strings are immutable byte sequences; they are modelled as
      GoStr := List Nat (the byte values).  string(b) and []byte(s)
      conversions copy content.
    - Go byte slices are mutable and aliased by pointer; a slice is
      modelled as a Slice carrying an allocation identifier together with
      its content.  Operations thread an allocation counter; a freshly
      allocated or cloned slice receives a new identifier, so two slices
      alias exactly when their identifiers coincide.  "Mutating b does not
      change the view" is expressed as: every buffer stored by the sink
      has an identifier different from the identifier of the argument.
    - Go errors are modelled as GoErr := String (the message); a method
      that mutates its receiver and returns an error is modelled as a
      function returning (new state, new allocation counter, Option GoErr).
    - JSON encoding and decoding are out of scope of the repository
      (opaque serialise/deserialise capabilities); SetJSON methods take
      the result of json.Marshal as an argument of type Except GoErr GoStr,
      and jsonSink methods take the behaviour of json.Unmarshal into the
      destination structure as a function argument dec : GoStr → Except GoErr δ.
-/

/-- Content of a Go string: a sequence of byte values. -/
abbrev GoStr : Type := List Nat

/-- A Go error, identified by its message. -/
abbrev GoErr : Type := String

/-- A Go byte slice: an allocation identifier plus its current content.
    Two slices alias exactly when their identifiers coincide. -/
structure Slice where
  id : Nat
  data : GoStr
deriving Repr, DecidableEq

/-- cloneBytes from the repository: allocate a fresh buffer holding a copy
    of the content of b.  Takes and returns the allocation counter. -/
def cloneBytes (n : Nat) (b : Slice) : Slice × Nat :=
  (⟨n, b.data⟩, n + 1)

/-- Modelled from the spec: the ByteView type (its defining file is not
    under src/, only its users are).  "An immutable, copy-safe snapshot of
    a value as either an owned byte buffer or a string"; the byte buffer
    field b is the discriminator, exactly as the users in sinks.go test
    `v.b != nil`. -/
structure ByteView where
  b : Option Slice := none
  s : GoStr := []
deriving Repr, DecidableEq

/-- Modelled from the spec: the derived length of a ByteView ("exactly one
    of \x7bowned byte buffer, string\x7d; derived length"): the length of the
    byte buffer when present, otherwise the length of the string. -/
def ByteView.len (v : ByteView) : Nat :=
  match v.b with
  | some sl => sl.data.length
  | none => v.s.length

/-- Modelled from the spec: the string form of a ByteView (the content of
    the active representation). -/
def ByteView.str (v : ByteView) : GoStr :=
  match v.b with
  | some sl => sl.data
  | none => v.s

/-- Whether a ByteView holds no buffer aliased with b: either it holds a
    string, or its buffer has a different allocation identifier. -/
def ByteView.indepOf (v : ByteView) (b : Slice) : Bool :=
  match v.b with
  | none => true
  | some sl => sl.id ≠ b.id

/-- stringSink from sinks.go: holds the external string slot sp (the slot
    content; the pointer itself is never nil-checked by the source) and the
    frozen view v. -/
structure stringSink where
  sp : GoStr
  v : ByteView
deriving Repr, DecidableEq

/-- stringSink.view returns s.v. -/
def stringSink.view (st : stringSink) : ByteView := st.v

/-- stringSink.SetString: s.v.b = nil; s.v.s = v; *s.sp = v. -/
def stringSink.SetString (st : stringSink) (n : Nat) (x : GoStr) :
    stringSink × Nat × Option GoErr :=
  ({ sp := x, v := { b := none, s := x } }, n, none)

/-- stringSink.SetBytes(v) = SetString(string(v)): the string conversion
    copies the content, so no buffer is retained. -/
def stringSink.SetBytes (st : stringSink) (n : Nat) (b : Slice) :
    stringSink × Nat × Option GoErr :=
  st.SetString n b.data

/-- stringSink.SetJSON: on Marshal failure return the error; on success
    allocate the encoding buffer, set s.v.b to it (leaving s.v.s as it
    was), and set *s.sp = string(b). -/
def stringSink.SetJSON (st : stringSink) (n : Nat) (enc : Except GoErr GoStr) :
    stringSink × Nat × Option GoErr :=
  match enc with
  | .error e => (st, n, some e)
  | .ok d => ({ sp := d, v := { b := some ⟨n, d⟩, s := st.v.s } }, n + 1, none)

/-- byteViewSink from sinks.go: holds the external ByteView slot dst
    (ByteViewSink panics on a nil pointer at construction, so the slot is
    always present). -/
structure byteViewSink where
  dst : ByteView
deriving Repr, DecidableEq

/-- byteViewSink.view returns *s.dst. -/
def byteViewSink.view (st : byteViewSink) : ByteView := st.dst

/-- byteViewSink.setView: *s.dst = v. -/
def byteViewSink.setView (st : byteViewSink) (v : ByteView) : byteViewSink :=
  { dst := v }

/-- byteViewSink.SetBytes: *s.dst = ByteView\x7bb: cloneBytes(b)\x7d. -/
def byteViewSink.SetBytes (st : byteViewSink) (n : Nat) (b : Slice) :
    byteViewSink × Nat × Option GoErr :=
  let (c, n1) := cloneBytes n b
  ({ dst := { b := some c, s := [] } }, n1, none)

/-- byteViewSink.SetString: *s.dst = ByteView\x7bs: v\x7d. -/
def byteViewSink.SetString (st : byteViewSink) (n : Nat) (x : GoStr) :
    byteViewSink × Nat × Option GoErr :=
  ({ dst := { b := none, s := x } }, n, none)

/-- byteViewSink.SetJSON: on Marshal success *s.dst = ByteView\x7bb: b\x7d with
    the freshly allocated encoding buffer. -/
def byteViewSink.SetJSON (st : byteViewSink) (n : Nat) (enc : Except GoErr GoStr) :
    byteViewSink × Nat × Option GoErr :=
  match enc with
  | .error e => (st, n, some e)
  | .ok d => ({ dst := { b := some ⟨n, d⟩, s := [] } }, n + 1, none)

/-- allocBytesSink from sinks.go: holds the external byte-slice slot dst
    (none models a nil *[]byte pointer, which the methods reject) and the
    frozen view v. -/
structure allocBytesSink where
  dst : Option Slice
  v : ByteView
deriving Repr, DecidableEq

/-- allocBytesSink.view returns s.v. -/
def allocBytesSink.view (st : allocBytesSink) : ByteView := st.v

/-- allocBytesSink.setBytesOwned: reject a nil dst; otherwise
    *s.dst = cloneBytes(b) (another copy, protecting s.v.b), s.v.b = b,
    s.v.s = "". -/
def allocBytesSink.setBytesOwned (st : allocBytesSink) (n : Nat) (b : Slice) :
    allocBytesSink × Nat × Option GoErr :=
  match st.dst with
  | none => (st, n, some "nil AllocatingByteSliceSink *[]byte dst")
  | some _ =>
    let (c, n1) := cloneBytes n b
    ({ dst := some c, v := { b := some b, s := [] } }, n1, none)

/-- allocBytesSink.SetBytes(b) = setBytesOwned(cloneBytes(b)). -/
def allocBytesSink.SetBytes (st : allocBytesSink) (n : Nat) (b : Slice) :
    allocBytesSink × Nat × Option GoErr :=
  let (c, n1) := cloneBytes n b
  st.setBytesOwned n1 c

/-- allocBytesSink.SetString: reject a nil dst; otherwise
    *s.dst = []byte(v) (a fresh buffer), s.v.b = nil, s.v.s = v. -/
def allocBytesSink.SetString (st : allocBytesSink) (n : Nat) (x : GoStr) :
    allocBytesSink × Nat × Option GoErr :=
  match st.dst with
  | none => (st, n, some "nil AllocatingByteSliceSink *[]byte dst")
  | some _ =>
    ({ dst := some ⟨n, x⟩, v := { b := none, s := x } }, n + 1, none)

/-- allocBytesSink.SetJSON: on Marshal failure return the error; on success
    the encoding is a freshly allocated buffer b, then setBytesOwned(b). -/
def allocBytesSink.SetJSON (st : allocBytesSink) (n : Nat) (enc : Except GoErr GoStr) :
    allocBytesSink × Nat × Option GoErr :=
  match enc with
  | .error e => (st, n, some e)
  | .ok d => st.setBytesOwned (n + 1) ⟨n, d⟩

/-- jsonSink from sinks.go: holds the current value of the destination
    structure dst (written through the caller-supplied pointer) and the
    frozen view v.  The behaviour of json.Unmarshal into the destination
    type is passed to each method as dec : GoStr → Except GoErr δ. -/
structure jsonSink (δ : Type) where
  dst : δ
  v : ByteView
deriving Repr, DecidableEq

/-- jsonSink.view returns s.v. -/
def jsonSink.view {δ : Type} (st : jsonSink δ) : ByteView := st.v

/-- jsonSink.SetBytes: decode b into dst; on failure return the error with
    the state unchanged; on success s.v.b = cloneBytes(b), s.v.s = "". -/
def jsonSink.SetBytes {δ : Type} (st : jsonSink δ) (n : Nat)
    (dec : GoStr → Except GoErr δ) (b : Slice) :
    jsonSink δ × Nat × Option GoErr :=
  match dec b.data with
  | .error e => (st, n, some e)
  | .ok d =>
    let (c, n1) := cloneBytes n b
    ({ dst := d, v := { b := some c, s := [] } }, n1, none)

/-- jsonSink.SetString: b := []byte(v) (a fresh buffer); decode b into dst;
    on failure return the error with the state unchanged; on success
    s.v.b = b, s.v.s = "". -/
def jsonSink.SetString {δ : Type} (st : jsonSink δ) (n : Nat)
    (dec : GoStr → Except GoErr δ) (x : GoStr) :
    jsonSink δ × Nat × Option GoErr :=
  match dec x with
  | .error e => (st, n, some e)
  | .ok d => ({ dst := d, v := { b := some ⟨n, x⟩, s := [] } }, n + 1, none)

/-- jsonSink.SetJSON: encode (Marshal result passed as enc), then decode
    the encoding into dst; on success s.v.b = b (the encoding buffer),
    s.v.s = "". -/
def jsonSink.SetJSON {δ : Type} (st : jsonSink δ) (n : Nat)
    (dec : GoStr → Except GoErr δ) (enc : Except GoErr GoStr) :
    jsonSink δ × Nat × Option GoErr :=
  match enc with
  | .error e => (st, n, some e)
  | .ok d =>
    match dec d with
    | .error e => (st, n, some e)
    | .ok dv => ({ dst := dv, v := { b := some ⟨n, d⟩, s := [] } }, n + 1, none)

/-- Byte accounting of a cache entry: len(key) + value.Len(), as used by
    cache.add and the OnEvicted callback. -/
def entrySize (k : GoStr) (v : ByteView) : Int :=
  (k.length : Int) + (v.len : Int)

/-- Sum of entrySize over a list of entries. -/
def sumEntries : List (GoStr × ByteView) → Int
  | [] => 0
  | (k, v) :: rest => entrySize k v + sumEntries rest

/-- Extract the entry for key from a recency-ordered entry list
    (most recently used first): returns its value and the list with that
    entry removed, or none when the key is absent. -/
def lruExtract : List (GoStr × ByteView) → GoStr → Option (ByteView × List (GoStr × ByteView))
  | [], _ => none
  | (k, v) :: rest, key =>
    if k = key then some (v, rest)
    else
      match lruExtract rest key with
      | none => none
      | some (v1, rest1) => some (v1, (k, v) :: rest1)

/-- Modelled from the spec: the external LRU primitive (package lru is not
    under src/; the spec specifies it only at its interface boundary:
    Add(key, value), Get(key) -> (value, found), RemoveOldest(),
    Len() -> int, plus an eviction callback invoked with (key, value)
    whenever an entry is evicted).  Entries are kept in recency order,
    most recently used first; the wrapper constructs it with no entry
    limit, so Add itself never evicts. -/
structure LruCache where
  entries : List (GoStr × ByteView)
deriving Repr, DecidableEq

/-- Modelled from the spec: lru.Cache.Add.  An existing entry for the key
    is moved to the front and its value replaced in place (the spec notes
    that replacement does not go through the eviction callback); a new
    entry is inserted at the front. -/
def LruCache.Add (l : LruCache) (key : GoStr) (value : ByteView) : LruCache :=
  match lruExtract l.entries key with
  | some (_, rest) => ⟨(key, value) :: rest⟩
  | none => ⟨(key, value) :: l.entries⟩

/-- Modelled from the spec: lru.Cache.Get.  On a hit the entry is moved to
    the front; on a miss the structure is unchanged. -/
def LruCache.Get (l : LruCache) (key : GoStr) : Option (ByteView × LruCache) :=
  match lruExtract l.entries key with
  | some (v, rest) => some (v, ⟨(key, v) :: rest⟩)
  | none => none

/-- Split off the last element of an entry list (the least recently used
    entry), returning it together with the remaining entries. -/
def popLast : List (GoStr × ByteView) → Option ((GoStr × ByteView) × List (GoStr × ByteView))
  | [] => none
  | [e] => some (e, [])
  | e :: e2 :: rest =>
    match popLast (e2 :: rest) with
    | none => none
    | some (lst, rest1) => some (lst, e :: rest1)

/-- Modelled from the spec: lru.Cache.RemoveOldest.  Removes the least
    recently used entry (the back of the list) and returns it (so the
    caller-registered eviction callback can run); none when empty. -/
def LruCache.RemoveOldest (l : LruCache) : Option ((GoStr × ByteView) × LruCache) :=
  match popLast l.entries with
  | none => none
  | some (e, rest) => some (e, ⟨rest⟩)

/-- Modelled from the spec: lru.Cache.Len. -/
def LruCache.Len (l : LruCache) : Nat := l.entries.length

/-- The cache wrapper (the cache struct): byte accounting and counters
    around an optional underlying LRU structure (nil until the first add). -/
structure cache where
  nbytes : Int
  lru : Option LruCache
  nhit : Int
  nget : Int
  nevict : Int
deriving Repr, DecidableEq

/-- A cache wrapper as zero-initialised inside a new Store. -/
def cache.empty : cache :=
  { nbytes := 0, lru := none, nhit := 0, nget := 0, nevict := 0 }

/-- cache.add: create the underlying structure on first use (registering
    the OnEvicted callback that decrements nbytes and increments nevict),
    call lru.Add, and increase nbytes by len(key) + value.Len(). -/
def cache.add (c : cache) (key : GoStr) (value : ByteView) : cache :=
  let l := c.lru.getD ⟨[]⟩
  { c with lru := some (l.Add key value),
           nbytes := c.nbytes + entrySize key value }

/-- cache.get: increment nget; if the underlying structure is absent or
    misses, report not found; on a hit increment nhit and return the value. -/
def cache.get (c : cache) (key : GoStr) : Option ByteView × cache :=
  let c1 := { c with nget := c.nget + 1 }
  match c.lru with
  | none => (none, c1)
  | some l =>
    match l.Get key with
    | none => (none, c1)
    | some (v, l1) => (some v, { c1 with nhit := c1.nhit + 1, lru := some l1 })

/-- cache.removeOldest: if the underlying structure is present, remove its
    oldest entry; the eviction callback decrements nbytes by the entry
    size and increments nevict. -/
def cache.removeOldest (c : cache) : cache :=
  match c.lru with
  | none => c
  | some l =>
    match l.RemoveOldest with
    | none => c
    | some ((k, v), l1) =>
      { c with lru := some l1,
               nbytes := c.nbytes - entrySize k v,
               nevict := c.nevict + 1 }

/-- cache.bytes. -/
def cache.bytes (c : cache) : Int := c.nbytes

/-- cache.itemsLocked: 0 when the underlying structure is absent. -/
def cache.itemsLocked (c : cache) : Int :=
  match c.lru with
  | none => 0
  | some l => (l.Len : Int)

/-- cache.items. -/
def cache.items (c : cache) : Int := c.itemsLocked

/-- CacheStats as returned by cache.stats. -/
structure CacheStats where
  Bytes : Int
  Items : Int
  Gets : Int
  Hits : Int
  Evictions : Int
deriving Repr, DecidableEq

/-- cache.stats. -/
def cache.stats (c : cache) : CacheStats :=
  { Bytes := c.nbytes, Items := c.itemsLocked, Gets := c.nget,
    Hits := c.nhit, Evictions := c.nevict }

/-- Sum of entry sizes over the currently resident entries of the wrapper. -/
def sumBytes (c : cache) : Int :=
  match c.lru with
  | none => 0
  | some l => sumEntries l.entries

/-- The byte-accounting invariant of the wrapper: the tracked total equals
    the sum over resident entries of (key length + value length). -/
def bytesInv (c : cache) : Prop := c.nbytes = sumBytes c

instance (c : cache) : Decidable (bytesInv c) := by
  unfold bytesInv; infer_instance

/-- Whether the wrapper currently holds an entry for key. -/
def cache.resident (c : cache) (key : GoStr) : Bool :=
  match c.lru with
  | none => false
  | some l => (lruExtract l.entries key).isSome

/-- Number of resident entries, as a Nat (the trim-loop measure). -/
def cache.size (c : cache) : Nat :=
  match c.lru with
  | none => 0
  | some l => l.entries.length

/-- The eviction loop of Store.populateCache: while the tracked bytes
    exceed the budget, removeOldest.  When an iteration makes no progress
    (removeOldest finds nothing to remove, so the state repeats), the Go
    loop spins forever; that divergence is represented by none.  The fuel
    argument is only a structural-recursion device: every recursive call
    strictly decreases the number of resident entries, so the fuel chosen
    by cacheTrim is never exhausted (cacheTrimFuel_zero_not_reached). -/
def cacheTrimFuel (budget : Int) : Nat → cache → Option cache
  | 0, c => if c.nbytes ≤ budget then some c else none
  | fuel + 1, c =>
    if c.nbytes ≤ budget then some c
    else
      let c1 := c.removeOldest
      if c1.size < c.size then cacheTrimFuel budget fuel c1 else none

/-- The eviction loop of Store.populateCache, started with enough fuel. -/
def cacheTrim (budget : Int) (c : cache) : Option cache :=
  cacheTrimFuel budget (c.size + 1) c

/-- One operation on the cache wrapper. -/
inductive CacheOp where
  | add (key : GoStr) (value : ByteView)
  | get (key : GoStr)
  | removeOldest
deriving Repr, DecidableEq

/-- Apply one operation to the wrapper (for get, keep the state). -/
def applyOp (c : cache) : CacheOp → cache
  | .add k v => c.add k v
  | .get k => (c.get k).2
  | .removeOldest => c.removeOldest

/-- Apply a sequence of operations to the wrapper. -/
def applyOps (c : cache) : List CacheOp → cache
  | [] => c
  | op :: rest => applyOps (applyOp c op) rest

/-- Whether along a sequence of operations every add is for a key that is
    not resident at the moment the add is applied. -/
def freshAdds (c : cache) : List CacheOp → Bool
  | [] => true
  | op :: rest =>
    (match op with
     | .add k _ => !(c.resident k)
     | _ => true) && freshAdds (applyOp c op) rest

/-- Remove every registry record for key (a Go map holds at most one). -/
def sfRemove : List GoStr → GoStr → List GoStr
  | [], _ => []
  | k :: rest, key => if k = key then sfRemove rest key else k :: sfRemove rest key

/-- singleflight Store.Do, sequentialised.  The registry is modelled as
    the list of keys that currently hold an in-flight call record (a nil
    map and an empty map coincide observably).  If a record for key is
    present, the caller would block on that record and, with no other
    thread of execution to complete it, never resume: that is represented
    by none.  Otherwise Do inserts a record, invokes fn on the calling
    thread, deletes the record, and returns the result of fn together with
    the number of times fn was invoked (instrumentation; the body invokes
    fn exactly once in this branch) and the registry after return. -/
def singleflightDo {α : Type} (m : List GoStr) (key : GoStr) (fn : Unit → α) :
    Option (α × Nat × List GoStr) :=
  if key ∈ m then none
  else
    let m1 := key :: m
    let r := fn ()
    some (r, 1, sfRemove m1 key)

/-- Store statistics (store.go Stats; AtomicInt modelled as Int since the
    model is sequential). -/
structure Stats where
  Gets : Int
  CacheHits : Int
  Loads : Int
  LoadsDeduped : Int
  LocalLoadErrs : Int
  LocalLoads : Int
deriving Repr, DecidableEq

/-- Zero-initialised statistics. -/
def Stats.zero : Stats := ⟨0, 0, 0, 0, 0, 0⟩

/-- A Store (store.go): the configured byte budget, the cache wrapper, the
    singleflight registry, and the statistics counters.  The name, the
    getter and the process-wide registry of stores are not needed by the
    modelled operations: the getter (loader) is passed to Get explicitly
    as a function from a key to the ByteView its Sink would freeze, or an
    error. -/
structure Store where
  cacheBytes : Int
  cache : cache
  flight : List GoStr
  stats : Stats
deriving Repr, DecidableEq

/-- A Store as built by NewStore: zeroed cache wrapper, empty singleflight
    registry, zeroed counters. -/
def Store.new (budget : Int) : Store :=
  { cacheBytes := budget, cache := cache.empty, flight := [], stats := Stats.zero }

/-- Store.lookupCache: report not found without consulting the wrapper
    when the byte budget is not positive; otherwise cache.get. -/
def Store.lookupCache (s : Store) (key : GoStr) : Option ByteView × Store :=
  if s.cacheBytes ≤ 0 then (none, s)
  else
    let r := s.cache.get key
    (r.1, { s with cache := r.2 })

/-- Store.populateCache: skip entirely when the byte budget is not
    positive; otherwise cache.add followed by the eviction loop
    (none when that loop diverges). -/
def Store.populateCache (s : Store) (key : GoStr) (value : ByteView) : Option Store :=
  if s.cacheBytes ≤ 0 then some s
  else (cacheTrim s.cacheBytes (s.cache.add key value)).map
    fun c1 => { s with cache := c1 }

/-- Store.load, sequentialised: increment Loads, then run the work
    function through the singleflight unit.  The work function re-checks
    the cache; on a hit it counts a cache hit and returns the cached view
    without invoking the loader; otherwise it increments LoadsDeduped,
    invokes the loader, and on success increments LocalLoads, marks the
    destination as populated by the loader, and populates the cache; on
    loader failure it increments LocalLoadErrs and propagates the error.
    The result is (value or error, destPopulated, loader invoked, state);
    none represents divergence (a blocked singleflight record or a
    non-terminating eviction loop).  The loader-invoked component is
    instrumentation marking that the loader was evaluated. -/
def Store.load (s : Store) (loader : GoStr → Except GoErr ByteView) (key : GoStr) :
    Option (Except GoErr ByteView × Bool × Bool × Store) :=
  let s1 := { s with stats := { s.stats with Loads := s.stats.Loads + 1 } }
  let fn : Unit → Option (Except GoErr ByteView × Bool × Bool × Store) := fun _ =>
    let r := s1.lookupCache key
    match r.1 with
    | some v =>
      some (.ok v, false, false,
        { r.2 with stats := { r.2.stats with CacheHits := r.2.stats.CacheHits + 1 } })
    | none =>
      let s2 := { r.2 with stats := { r.2.stats with LoadsDeduped := r.2.stats.LoadsDeduped + 1 } }
      match loader key with
      | .error e =>
        some (.error e, false, true,
          { s2 with stats := { s2.stats with LocalLoadErrs := s2.stats.LocalLoadErrs + 1 } })
      | .ok value =>
        let s3 := { s2 with stats := { s2.stats with LocalLoads := s2.stats.LocalLoads + 1 } }
        (s3.populateCache key value).map fun s4 => (.ok value, true, true, s4)
  match singleflightDo s1.flight key fn with
  | none => none
  | some (r, _cnt, m1) =>
    match r with
    | none => none
    | some (res, dp, inv, s2) => some (res, dp, inv, { s2 with flight := m1 })

/-- Store.Get, sequentialised: increment Gets; fail on an absent Sink;
    otherwise look up the cache (on a hit, count it and deliver the view
    to the destination); on a miss, load, and deliver the resulting view
    to the destination unless the loader already populated it.  Writes
    into the destination Sink are modelled as succeeding; the destination
    itself is modelled by its presence (destNil).  The result is
    (returned error, loader invoked, state); none represents divergence. -/
def Store.Get (s : Store) (loader : GoStr → Except GoErr ByteView) (key : GoStr)
    (destNil : Bool) : Option (Option GoErr × Bool × Store) :=
  let s1 := { s with stats := { s.stats with Gets := s.stats.Gets + 1 } }
  if destNil then some (some "store: nil dest Sink", false, s1)
  else
    let r := s1.lookupCache key
    match r.1 with
    | some _value =>
      some (none, false,
        { r.2 with stats := { r.2.stats with CacheHits := r.2.stats.CacheHits + 1 } })
    | none =>
      match r.2.load loader key with
      | none => none
      | some (res, destPopulated, inv, s3) =>
        match res with
        | .error e => some (some e, inv, s3)
        | .ok _value =>
          if destPopulated then some (none, inv, s3)
          else some (none, inv, s3)

/-- Run a sequence of sequential Get calls (each with a present Sink),
    counting how many of them invoked the loader. -/
def Store.runGets (s : Store) (loader : GoStr → Except GoErr ByteView) :
    List GoStr → Option (Store × Nat)
  | [] => some (s, 0)
  | k :: ks =>
    match s.Get loader k false with
    | none => none
    | some (_, inv, s1) =>
      match s1.runGets loader ks with
      | none => none
      | some (s2, c) => some (s2, (if inv then 1 else 0) + c)

theorem entrySize_nonneg (k : GoStr) (v : ByteView) : 0 ≤ entrySize k v := by
  unfold entrySize
  omega

theorem sumEntries_nonneg : ∀ l : List (GoStr × ByteView), 0 ≤ sumEntries l := by
  intro l
  induction l with
  | nil => simp [sumEntries]
  | cons a t ih =>
    obtain ⟨k, v⟩ := a
    have := entrySize_nonneg k v
    simp only [sumEntries]
    omega

theorem lruExtract_sum :
    ∀ (l : List (GoStr × ByteView)) (key : GoStr) (v : ByteView)
      (rest : List (GoStr × ByteView)),
      lruExtract l key = some (v, rest) →
      sumEntries l = entrySize key v + sumEntries rest := by
  intro l
  induction l with
  | nil => intro key v rest h; simp [lruExtract] at h
  | cons a t ih =>
    intro key v rest h
    obtain ⟨k1, v1⟩ := a
    by_cases hk : k1 = key
    · rw [lruExtract, if_pos hk] at h
      simp only [Option.some.injEq, Prod.mk.injEq] at h
      obtain ⟨h1, h2⟩ := h
      simp only [sumEntries]
      rw [hk, h1, h2]
    · rw [lruExtract, if_neg hk] at h
      cases h2 : lruExtract t key with
      | none => rw [h2] at h; simp at h
      | some p =>
        obtain ⟨v2, rest2⟩ := p
        rw [h2] at h
        simp only [Option.some.injEq, Prod.mk.injEq] at h
        obtain ⟨hv, hr⟩ := h
        have h3 := ih key v2 rest2 h2
        rw [← hr]
        simp only [sumEntries]
        rw [h3, hv]
        omega

theorem lruExtract_none_not_mem :
    ∀ (l : List (GoStr × ByteView)) (key : GoStr),
      lruExtract l key = none → ∀ p ∈ l, p.1 ≠ key := by
  intro l
  induction l with
  | nil => intro key _ p hp; simp at hp
  | cons a t ih =>
    intro key h p hp
    obtain ⟨k1, v1⟩ := a
    by_cases hk : k1 = key
    · rw [lruExtract, if_pos hk] at h; simp at h
    · rw [lruExtract, if_neg hk] at h
      cases h2 : lruExtract t key with
      | none =>
        rcases List.mem_cons.mp hp with h3 | h3
        · rw [h3]; exact hk
        · exact ih key h2 p h3
      | some p2 =>
        obtain ⟨v2, rest2⟩ := p2
        rw [h2] at h
        simp at h

theorem popLast_some :
    ∀ (t : List (GoStr × ByteView)) (e : GoStr × ByteView),
      ∃ p rest, popLast (e :: t) = some (p, rest) := by
  intro t
  induction t with
  | nil => intro e; exact ⟨e, [], rfl⟩
  | cons e2 t2 ih =>
    intro e
    obtain ⟨p, rest, hp⟩ := ih e2
    refine ⟨p, e :: rest, ?_⟩
    rw [popLast, hp]

theorem popLast_sum :
    ∀ (l : List (GoStr × ByteView)) (k : GoStr) (v : ByteView)
      (rest : List (GoStr × ByteView)),
      popLast l = some ((k, v), rest) →
      sumEntries l = sumEntries rest + entrySize k v := by
  intro l
  induction l with
  | nil => intro k v rest h; simp [popLast] at h
  | cons e t ih =>
    intro k v rest h
    cases t with
    | nil =>
      obtain ⟨ke, ve⟩ := e
      rw [popLast] at h
      simp only [Option.some.injEq, Prod.mk.injEq] at h
      obtain ⟨⟨he1, he2⟩, hr⟩ := h
      rw [← hr, ← he1, ← he2]
      simp only [sumEntries]
      omega
    | cons e2 t2 =>
      rw [popLast] at h
      cases h2 : popLast (e2 :: t2) with
      | none => rw [h2] at h; simp at h
      | some p =>
        obtain ⟨lst, rest1⟩ := p
        obtain ⟨k2, v2⟩ := lst
        rw [h2] at h
        simp only [Option.some.injEq, Prod.mk.injEq] at h
        obtain ⟨⟨hk2, hv2⟩, hr⟩ := h
        have h3 := ih k2 v2 rest1 h2
        rw [← hr]
        simp only [sumEntries] at h3 ⊢
        rw [hk2, hv2] at h3
        omega

theorem popLast_len :
    ∀ (l : List (GoStr × ByteView)) (e : GoStr × ByteView)
      (rest : List (GoStr × ByteView)),
      popLast l = some (e, rest) → l.length = rest.length + 1 := by
  intro l
  induction l with
  | nil => intro e rest h; simp [popLast] at h
  | cons a t ih =>
    intro e rest h
    cases t with
    | nil =>
      rw [popLast] at h
      simp only [Option.some.injEq, Prod.mk.injEq] at h
      obtain ⟨_, hr⟩ := h
      rw [← hr]
      simp
    | cons e2 t2 =>
      rw [popLast] at h
      cases h2 : popLast (e2 :: t2) with
      | none => rw [h2] at h; simp at h
      | some p =>
        obtain ⟨lst, rest1⟩ := p
        rw [h2] at h
        simp only [Option.some.injEq, Prod.mk.injEq] at h
        obtain ⟨hl, hr⟩ := h
        have h3 := ih lst rest1 h2
        rw [← hr]
        simp only [List.length_cons] at h3 ⊢
        omega

theorem cacheTrimFuel_ok (budget : Int) :
    ∀ (fuel : Nat) (c : cache), c.size < fuel →
      c.nbytes - sumBytes c ≤ budget →
      ∃ c1, cacheTrimFuel budget fuel c = some c1 ∧ c1.nbytes ≤ budget ∧
        c1.nbytes - sumBytes c1 = c.nbytes - sumBytes c := by
  intro fuel
  induction fuel with
  | zero => intro c h _; exact absurd h (by omega)
  | succ f ih =>
    intro c hsz hex
    by_cases hb : c.nbytes ≤ budget
    · refine ⟨c, ?_, hb, rfl⟩
      rw [cacheTrimFuel, if_pos hb]
    · have hpos : 0 < sumBytes c := by omega
      cases hl : c.lru with
      | none => simp [sumBytes, hl] at hpos
      | some l =>
        cases hel : l.entries with
        | nil => simp [sumBytes, hl, hel, sumEntries] at hpos
        | cons e t =>
          obtain ⟨p, rest, hpop⟩ := popLast_some t e
          obtain ⟨k, v⟩ := p
          have hpop2 : popLast l.entries = some ((k, v), rest) := by rw [hel]; exact hpop
          have hro : c.removeOldest =
              { c with lru := some ⟨rest⟩,
                       nbytes := c.nbytes - entrySize k v,
                       nevict := c.nevict + 1 } := by
            simp only [cache.removeOldest, LruCache.RemoveOldest, hl, hpop2]
          have hsum : sumEntries l.entries = sumEntries rest + entrySize k v :=
            popLast_sum l.entries k v rest hpop2
          have hlen : l.entries.length = rest.length + 1 := popLast_len l.entries (k, v) rest hpop2
          have hsz1 : (c.removeOldest).size = rest.length := by rw [hro]; simp [cache.size]
          have hszc : c.size = rest.length + 1 := by
            simp only [cache.size, hl]
            exact hlen
          have hex1 : (c.removeOldest).nbytes - sumBytes (c.removeOldest) =
              c.nbytes - sumBytes c := by
            rw [hro]
            simp only [sumBytes, hl]
            omega
          obtain ⟨c1, hc1, hc1b, hc1e⟩ := ih (c.removeOldest) (by omega) (by rw [hex1]; exact hex)
          refine ⟨c1, ?_, hc1b, by rw [hc1e, hex1]⟩
          rw [cacheTrimFuel]
          simp only [if_neg hb]
          rw [if_pos (by omega : (c.removeOldest).size < c.size)]
          exact hc1

theorem add_excess (c : cache) (k : GoStr) (v : ByteView) (B : Int)
    (hInv : bytesInv c) (hb : c.nbytes ≤ B) (hB : 0 ≤ B) :
    (c.add k v).nbytes - sumBytes (c.add k v) ≤ B := by
  unfold bytesInv at hInv
  cases hl : c.lru with
  | none =>
    have h0 : c.nbytes = 0 := by rw [hInv]; simp [sumBytes, hl]
    have hadd : c.add k v = { c with lru := some (LruCache.Add ⟨[]⟩ k v),
                                     nbytes := c.nbytes + entrySize k v } := by
      rw [cache.add]
      rw [hl]
      rfl
    rw [hadd]
    simp only [sumBytes, LruCache.Add, lruExtract, sumEntries]
    omega
  | some l =>
    have hn : c.nbytes = sumEntries l.entries := by rw [hInv]; simp [sumBytes, hl]
    have hadd : c.add k v = { c with lru := some (l.Add k v),
                                     nbytes := c.nbytes + entrySize k v } := by
      rw [cache.add]
      rw [hl]
      rfl
    rw [hadd]
    cases hx : lruExtract l.entries k with
    | none =>
      simp only [sumBytes, LruCache.Add, hx, sumEntries]
      omega
    | some p =>
      obtain ⟨vOld, rest⟩ := p
      have hsum := lruExtract_sum l.entries k vOld rest hx
      have hrest := sumEntries_nonneg rest
      simp only [sumBytes, LruCache.Add, hx, sumEntries]
      omega

theorem add_fresh_inv (c : cache) (k : GoStr) (v : ByteView)
    (hres : c.resident k = false) (hInv : bytesInv c) : bytesInv (c.add k v) := by
  unfold bytesInv at *
  cases hl : c.lru with
  | none =>
    have h0 : c.nbytes = 0 := by rw [hInv]; simp [sumBytes, hl]
    have hadd : c.add k v = { c with lru := some (LruCache.Add ⟨[]⟩ k v),
                                     nbytes := c.nbytes + entrySize k v } := by
      rw [cache.add, hl]; rfl
    rw [hadd]
    simp only [sumBytes, LruCache.Add, lruExtract, sumEntries]
    omega
  | some l =>
    have hn : c.nbytes = sumEntries l.entries := by rw [hInv]; simp [sumBytes, hl]
    have hx : lruExtract l.entries k = none := by
      cases h2 : lruExtract l.entries k with
      | none => rfl
      | some p =>
        simp only [cache.resident, hl, h2, Option.isSome_some] at hres
        exact absurd hres (by decide)
    have hadd : c.add k v = { c with lru := some (l.Add k v),
                                     nbytes := c.nbytes + entrySize k v } := by
      rw [cache.add, hl]; rfl
    rw [hadd]
    simp only [sumBytes, LruCache.Add, hx, sumEntries]
    omega

theorem get_inv (c : cache) (k : GoStr) (hInv : bytesInv c) : bytesInv (c.get k).2 := by
  unfold bytesInv at *
  cases hl : c.lru with
  | none =>
    simp only [cache.get, hl]
    simp only [sumBytes]
    rw [hInv]
    simp [sumBytes, hl]
  | some l =>
    cases hx : lruExtract l.entries k with
    | none =>
      have hn : c.nbytes = sumEntries l.entries := by rw [hInv]; simp [sumBytes, hl]
      simp only [cache.get, LruCache.Get, hl, hx]
      simp only [sumBytes]
      exact hn
    | some p =>
      obtain ⟨v, rest⟩ := p
      have hsum := lruExtract_sum l.entries k v rest hx
      have hn : c.nbytes = sumEntries l.entries := by rw [hInv]; simp [sumBytes, hl]
      simp only [cache.get, LruCache.Get, hl, hx]
      simp only [sumBytes, sumEntries]
      omega

theorem removeOldest_inv (c : cache) (hInv : bytesInv c) : bytesInv c.removeOldest := by
  unfold bytesInv at *
  cases hl : c.lru with
  | none => simp only [cache.removeOldest, hl]; exact hInv
  | some l =>
    cases hp : popLast l.entries with
    | none => simp only [cache.removeOldest, LruCache.RemoveOldest, hl, hp]; exact hInv
    | some p =>
      obtain ⟨e, rest⟩ := p
      obtain ⟨k, v⟩ := e
      have hsum := popLast_sum l.entries k v rest hp
      have hn : c.nbytes = sumEntries l.entries := by rw [hInv]; simp [sumBytes, hl]
      simp only [cache.removeOldest, LruCache.RemoveOldest, hl, hp]
      simp only [sumBytes]
      omega

theorem sfRemove_not_mem :
    ∀ (m : List GoStr) (key : GoStr), key ∉ m → sfRemove m key = m := by
  intro m
  induction m with
  | nil => intro key _; rfl
  | cons k t ih =>
    intro key h
    have h1 : ¬ (k = key) := fun he => h (by rw [he]; exact List.mem_cons_self key t)
    have h2 : key ∉ t := fun ht => h (List.mem_cons_of_mem k ht)
    rw [sfRemove, if_neg h1, ih key h2]

/-- C1: for every key and every work function fn, when the singleflight
    registry holds no record for key, Do(key, fn) invokes fn exactly once,
    returns exactly the result fn produced, and on return the registry
    again holds no record for that key, so a strictly subsequent Do for
    the same key invokes its work function afresh (second conjunct, for an
    arbitrary second work function against the restored registry). -/
theorem singleflight_Do_fresh {α : Type} (m : List GoStr) (key : GoStr)
    (fn fn2 : Unit → α) (h : key ∉ m) :
    singleflightDo m key fn = some (fn (), 1, m) ∧
    singleflightDo m key fn2 = some (fn2 (), 1, m) := by
  have hr : sfRemove (key :: m) key = m := by
    rw [sfRemove, if_pos rfl]
    exact sfRemove_not_mem m key h
  constructor
  · simp only [singleflightDo, if_neg h]
    rw [hr]
  · simp only [singleflightDo, if_neg h]
    rw [hr]

theorem singleflight_Do_fresh_witness :
    (([3] : GoStr) ∉ ([[1], [2]] : List GoStr)) ∧
    singleflightDo [[1], [2]] [3] (fun _ => (7 : Nat)) = some (7, 1, [[1], [2]]) :=
  ⟨by decide,
   (singleflight_Do_fresh [[1], [2]] [3] (fun _ => (7 : Nat)) (fun _ => (7 : Nat))
     (by decide)).1⟩

/-- C8: Get with an absent destination Sink increments the Gets counter by
    one and returns the invalid-destination error; the full state equality
    shows the cache, the singleflight registry and every other counter are
    untouched and the loader is not invoked. -/
theorem Get_nil_dest (s : Store) (loader : GoStr → Except GoErr ByteView) (key : GoStr) :
    s.Get loader key true =
      some (some "store: nil dest Sink", false,
        { s with stats := { s.stats with Gets := s.stats.Gets + 1 } }) := by
  rfl

/-- C9: on a cache wrapper whose underlying LRU structure is still absent,
    get reports not found while still incrementing the get counter (and
    creates no structure), removeOldest is a no-op, items and stats report
    0 items; only add creates the underlying structure (last conjunct). -/
theorem cache_nil_lru_safe (c : cache) (key k2 : GoStr) (v2 : ByteView)
    (h : c.lru = none) :
    c.get key = (none, { c with nget := c.nget + 1 }) ∧
    c.removeOldest = c ∧
    c.items = 0 ∧
    (c.stats).Items = 0 ∧
    ((c.add k2 v2).lru).isSome = true := by
  refine ⟨?_, ?_, ?_, ?_, ?_⟩
  · simp only [cache.get, h]
  · simp only [cache.removeOldest, h]
  · simp only [cache.items, cache.itemsLocked, h]
  · simp only [cache.stats, cache.itemsLocked, h]
  · simp only [cache.add, h, Option.isSome_some]

theorem cache_nil_lru_safe_witness :
    cache.empty.lru = none ∧
    (cache.empty.get [1] = (none, { cache.empty with nget := 1 }) ∧
     cache.empty.removeOldest = cache.empty ∧
     cache.empty.items = 0 ∧
     (cache.empty.stats).Items = 0 ∧
     ((cache.empty.add [2] { b := none, s := [9] }).lru).isSome = true) :=
  ⟨rfl, cache_nil_lru_safe cache.empty [1] [2] { b := none, s := [9] } rfl⟩

/-- C10: for the string, ByteView and allocating sinks, when the JSON
    encoding fails SetJSON returns that error and leaves the sink (both
    the external destination slot and the frozen view) and the allocation
    state completely unchanged. -/
theorem SetJSON_error_unchanged (stS : stringSink) (stB : byteViewSink)
    (stA : allocBytesSink) (n : Nat) (e : GoErr) :
    stS.SetJSON n (.error e) = (stS, n, some e) ∧
    stB.SetJSON n (.error e) = (stB, n, some e) ∧
    stA.SetJSON n (.error e) = (stA, n, some e) :=
  ⟨rfl, rfl, rfl⟩

/-- C5 counterexample: for the string sink the claim fails.  From a fresh
    string sink, SetJSON of a successfully encoded value leaves the frozen
    view holding the encoding in the byte-buffer field, while SetBytes of
    the same encoding (stringSink.SetBytes goes through SetString) leaves
    the view holding it in the string field with no buffer; the two sink
    states differ. -/
theorem stringSink_SetJSON_ne_SetBytes :
    ((stringSink.SetJSON ⟨[], {}⟩ 0 (.ok [7])).1.view ≠
      (stringSink.SetBytes ⟨[], {}⟩ 0 ⟨5, [7]⟩).1.view) ∧
    (stringSink.SetJSON ⟨[], {}⟩ 0 (.ok [7])).1.view.b.isSome = true ∧
    (stringSink.SetBytes ⟨[], {}⟩ 0 ⟨5, [7]⟩).1.view.b = none := by
  decide

/-- C5 (amended): for the ByteView sink and the allocating-byte-slice sink,
    SetJSON(m) leaves the sink in exactly the state SetBytes applied to the
    JSON encoding of m would produce (a full state equality, for any
    identity of the encoding buffer).  For the string sink only the
    external destination slot, the content (string form) of the frozen
    view and the returned error agree: SetJSON stores the encoding in the
    view byte-buffer field (leaving the prior string field in place),
    whereas SetBytes stores it in the view string field. -/
theorem SetJSON_refines_SetBytes (stB : byteViewSink) (stA : allocBytesSink)
    (stS : stringSink) (n i : Nat) (d : GoStr) :
    stB.SetJSON n (.ok d) = stB.SetBytes n ⟨i, d⟩ ∧
    stA.SetJSON n (.ok d) = stA.SetBytes n ⟨i, d⟩ ∧
    (stS.SetJSON n (.ok d)).1.sp = (stS.SetBytes n ⟨i, d⟩).1.sp ∧
    (stS.SetJSON n (.ok d)).1.view.str = (stS.SetBytes n ⟨i, d⟩).1.view.str ∧
    (stS.SetJSON n (.ok d)).2.2 = none ∧ (stS.SetBytes n ⟨i, d⟩).2.2 = none :=
  ⟨rfl, rfl, rfl, rfl, rfl, rfl⟩

/-- C6 counterexample: for the string sink the claim fails.  After
    SetString [1] followed by a successful SetJSON, the frozen view holds
    the new encoding in the byte-buffer field while the string field still
    holds [1], the value set by the earlier SetString: a stale
    representation from an earlier SetX survives, so the view does not
    hold the newly set value in exactly one of the two representations. -/
theorem stringSink_stale_string :
    (((stringSink.SetString ⟨[], {}⟩ 0 [1]).1.SetJSON 0 (.ok [2])).1.view.b =
      some ⟨0, [2]⟩) ∧
    (((stringSink.SetString ⟨[], {}⟩ 0 [1]).1.SetJSON 0 (.ok [2])).1.view.s = [1]) := by
  decide

/-- C6 (amended): every successful SetX sets the frozen view active
    representation (the byte buffer when present, otherwise the string) to
    exactly the newly set value, and every sink/operation pair except the
    string sink SetJSON fully replaces the view, clearing the other
    representation; the string sink SetJSON leaves the prior string
    field in place underneath the newly stored byte buffer.  Stated as
    exact result-view equalities for every variant and operation. -/
theorem setx_overwrites_view {δ : Type} (stS : stringSink) (stB : byteViewSink)
    (stA : allocBytesSink) (stJ : jsonSink δ) (dec : GoStr → Except GoErr δ)
    (n : Nat) (x d : GoStr) (b : Slice) (a : Slice) (dx db dd : δ)
    (ha : stA.dst = some a) (hdx : dec x = .ok dx)
    (hdb : dec b.data = .ok db) (hdd : dec d = .ok dd) :
    (stS.SetString n x).1.view = { b := none, s := x } ∧
    (stS.SetBytes n b).1.view = { b := none, s := b.data } ∧
    (stS.SetJSON n (.ok d)).1.view = { b := some ⟨n, d⟩, s := stS.v.s } ∧
    (stB.SetString n x).1.view = { b := none, s := x } ∧
    (stB.SetBytes n b).1.view = { b := some ⟨n, b.data⟩, s := [] } ∧
    (stB.SetJSON n (.ok d)).1.view = { b := some ⟨n, d⟩, s := [] } ∧
    (stA.SetString n x).1.view = { b := none, s := x } ∧
    (stA.SetBytes n b).1.view = { b := some ⟨n, b.data⟩, s := [] } ∧
    (stA.SetJSON n (.ok d)).1.view = { b := some ⟨n, d⟩, s := [] } ∧
    (stJ.SetString n dec x).1.view = { b := some ⟨n, x⟩, s := [] } ∧
    (stJ.SetBytes n dec b).1.view = { b := some ⟨n, b.data⟩, s := [] } ∧
    (stJ.SetJSON n dec (.ok d)).1.view = { b := some ⟨n, d⟩, s := [] } := by
  refine ⟨rfl, rfl, rfl, rfl, rfl, rfl, ?_, ?_, ?_, ?_, ?_, ?_⟩
  · simp only [allocBytesSink.SetString, ha, allocBytesSink.view]
  · simp only [allocBytesSink.SetBytes, allocBytesSink.setBytesOwned, cloneBytes, ha,
      allocBytesSink.view]
  · simp only [allocBytesSink.SetJSON, allocBytesSink.setBytesOwned, cloneBytes, ha,
      allocBytesSink.view]
  · simp only [jsonSink.SetString, hdx, jsonSink.view]
  · simp only [jsonSink.SetBytes, hdb, cloneBytes, jsonSink.view]
  · simp only [jsonSink.SetJSON, hdd, jsonSink.view]

theorem setx_overwrites_view_witness :
    ((⟨some ⟨0, []⟩, {}⟩ : allocBytesSink).dst = some ⟨0, []⟩) ∧
    ((fun g : GoStr => (Except.ok g.length : Except GoErr Nat)) [1] = .ok 1) ∧
    ((stringSink.SetString ⟨[], {}⟩ 9 [1]).1.view = { b := none, s := [1] } ∧
     (stringSink.SetBytes ⟨[], {}⟩ 9 ⟨3, [4]⟩).1.view = { b := none, s := [4] } ∧
     (stringSink.SetJSON ⟨[], {}⟩ 9 (.ok [2])).1.view = { b := some ⟨9, [2]⟩, s := [] } ∧
     (byteViewSink.SetString ⟨{}⟩ 9 [1]).1.view = { b := none, s := [1] } ∧
     (byteViewSink.SetBytes ⟨{}⟩ 9 ⟨3, [4]⟩).1.view = { b := some ⟨9, [4]⟩, s := [] } ∧
     (byteViewSink.SetJSON ⟨{}⟩ 9 (.ok [2])).1.view = { b := some ⟨9, [2]⟩, s := [] } ∧
     (allocBytesSink.SetString ⟨some ⟨0, []⟩, {}⟩ 9 [1]).1.view = { b := none, s := [1] } ∧
     (allocBytesSink.SetBytes ⟨some ⟨0, []⟩, {}⟩ 9 ⟨3, [4]⟩).1.view =
       { b := some ⟨9, [4]⟩, s := [] } ∧
     (allocBytesSink.SetJSON ⟨some ⟨0, []⟩, {}⟩ 9 (.ok [2])).1.view =
       { b := some ⟨9, [2]⟩, s := [] } ∧
     (jsonSink.SetString ⟨0, {}⟩ 9 (fun g : GoStr => .ok g.length) [1]).1.view =
       { b := some ⟨9, [1]⟩, s := [] } ∧
     (jsonSink.SetBytes ⟨0, {}⟩ 9 (fun g : GoStr => .ok g.length) ⟨3, [4]⟩).1.view =
       { b := some ⟨9, [4]⟩, s := [] } ∧
     (jsonSink.SetJSON ⟨0, {}⟩ 9 (fun g : GoStr => .ok g.length) (.ok [2])).1.view =
       { b := some ⟨9, [2]⟩, s := [] }) :=
  ⟨rfl, rfl,
   setx_overwrites_view (⟨[], {}⟩ : stringSink) (⟨{}⟩ : byteViewSink)
     (⟨some ⟨0, []⟩, {}⟩ : allocBytesSink) (⟨0, {}⟩ : jsonSink Nat)
     (fun g : GoStr => .ok g.length) 9 [1] [2] ⟨3, [4]⟩ ⟨0, []⟩ 1 1 1
     rfl rfl rfl rfl⟩

/-- C7: for every sink variant, after a successful SetString(s) the frozen
    view string form equals s, and after a successful SetBytes(b) the
    frozen view content equals the content of b and the view is
    independently owned from b: every buffer it stores is a fresh
    allocation whose identifier differs from that of b, so a later
    mutation through b cannot change the view. -/
theorem sink_roundtrip {δ : Type} (stS : stringSink) (stB : byteViewSink)
    (stA : allocBytesSink) (stJ : jsonSink δ) (dec : GoStr → Except GoErr δ)
    (n : Nat) (x : GoStr) (b : Slice) (a : Slice) (dx db : δ)
    (hb : b.id < n) (ha : stA.dst = some a)
    (hdx : dec x = .ok dx) (hdb : dec b.data = .ok db) :
    (stS.SetString n x).1.view.str = x ∧
    (stB.SetString n x).1.view.str = x ∧
    (stA.SetString n x).1.view.str = x ∧
    (stJ.SetString n dec x).1.view.str = x ∧
    (stS.SetBytes n b).1.view.str = b.data ∧
    (stS.SetBytes n b).1.view.indepOf b = true ∧
    (stB.SetBytes n b).1.view.str = b.data ∧
    (stB.SetBytes n b).1.view.indepOf b = true ∧
    (stA.SetBytes n b).1.view.str = b.data ∧
    (stA.SetBytes n b).1.view.indepOf b = true ∧
    (stJ.SetBytes n dec b).1.view.str = b.data ∧
    (stJ.SetBytes n dec b).1.view.indepOf b = true := by
  have hne : n ≠ b.id := by omega
  refine ⟨rfl, rfl, ?_, ?_, rfl, rfl, rfl, ?_, ?_, ?_, ?_, ?_⟩
  · simp only [allocBytesSink.SetString, ha, allocBytesSink.view, ByteView.str]
  · simp only [jsonSink.SetString, hdx, jsonSink.view, ByteView.str]
  · simp only [byteViewSink.SetBytes, cloneBytes, byteViewSink.view, ByteView.indepOf, hne,
      ne_eq, not_false_eq_true, decide_True]
  · simp only [allocBytesSink.SetBytes, allocBytesSink.setBytesOwned, cloneBytes, ha,
      allocBytesSink.view, ByteView.str]
  · simp only [allocBytesSink.SetBytes, allocBytesSink.setBytesOwned, cloneBytes, ha,
      allocBytesSink.view, ByteView.indepOf, hne, ne_eq, not_false_eq_true, decide_True]
  · simp only [jsonSink.SetBytes, hdb, cloneBytes, jsonSink.view, ByteView.str]
  · simp only [jsonSink.SetBytes, hdb, cloneBytes, jsonSink.view, ByteView.indepOf, hne,
      ne_eq, not_false_eq_true, decide_True]

theorem sink_roundtrip_witness :
    ((⟨3, [4]⟩ : Slice).id < 9 ∧ (⟨some ⟨0, []⟩, {}⟩ : allocBytesSink).dst = some ⟨0, []⟩ ∧
     (fun g : GoStr => (Except.ok g.length : Except GoErr Nat)) [1] = .ok 1) ∧
    ((stringSink.SetString ⟨[], {}⟩ 9 [1]).1.view.str = [1] ∧
     (byteViewSink.SetString ⟨{}⟩ 9 [1]).1.view.str = [1] ∧
     (allocBytesSink.SetString ⟨some ⟨0, []⟩, {}⟩ 9 [1]).1.view.str = [1] ∧
     (jsonSink.SetString ⟨0, {}⟩ 9 (fun g : GoStr => .ok g.length) [1]).1.view.str = [1] ∧
     (stringSink.SetBytes ⟨[], {}⟩ 9 ⟨3, [4]⟩).1.view.str = [4] ∧
     (stringSink.SetBytes ⟨[], {}⟩ 9 ⟨3, [4]⟩).1.view.indepOf ⟨3, [4]⟩ = true ∧
     (byteViewSink.SetBytes ⟨{}⟩ 9 ⟨3, [4]⟩).1.view.str = [4] ∧
     (byteViewSink.SetBytes ⟨{}⟩ 9 ⟨3, [4]⟩).1.view.indepOf ⟨3, [4]⟩ = true ∧
     (allocBytesSink.SetBytes ⟨some ⟨0, []⟩, {}⟩ 9 ⟨3, [4]⟩).1.view.str = [4] ∧
     (allocBytesSink.SetBytes ⟨some ⟨0, []⟩, {}⟩ 9 ⟨3, [4]⟩).1.view.indepOf ⟨3, [4]⟩ = true ∧
     (jsonSink.SetBytes ⟨0, {}⟩ 9 (fun g : GoStr => .ok g.length) ⟨3, [4]⟩).1.view.str = [4] ∧
     (jsonSink.SetBytes ⟨0, {}⟩ 9 (fun g : GoStr => .ok g.length) ⟨3, [4]⟩).1.view.indepOf
       ⟨3, [4]⟩ = true) :=
  ⟨⟨by decide, rfl, rfl⟩,
   sink_roundtrip (⟨[], {}⟩ : stringSink) (⟨{}⟩ : byteViewSink)
     (⟨some ⟨0, []⟩, {}⟩ : allocBytesSink) (⟨0, {}⟩ : jsonSink Nat)
     (fun g : GoStr => .ok g.length) 9 [1] ⟨3, [4]⟩ ⟨0, []⟩ 1 1
     (by decide) rfl rfl rfl⟩

/-- C2 counterexample: the byte-accounting invariant is not preserved by
    add when the key being added is already resident.  Adding the same
    (key, value) of entry size 2 twice from the empty wrapper leaves one
    resident entry (the underlying structure replaces the entry in place,
    without invoking the eviction callback) but add unconditionally
    increases the tracked total, so the total is 4 while the sum over
    resident entries is 2. -/
theorem bytes_accounting_duplicate_add :
    ¬ bytesInv (applyOps cache.empty
      [CacheOp.add [1] { b := none, s := [7] },
       CacheOp.add [1] { b := none, s := [7] }]) ∧
    (applyOps cache.empty
      [CacheOp.add [1] { b := none, s := [7] },
       CacheOp.add [1] { b := none, s := [7] }]).nbytes = 4 ∧
    sumBytes (applyOps cache.empty
      [CacheOp.add [1] { b := none, s := [7] },
       CacheOp.add [1] { b := none, s := [7] }]) = 2 := by
  decide

/-- C2 (amended): for every sequence of cache wrapper operations (add,
    get, removeOldest, with evictions running through the eviction
    callback) in which every add is for a key that is not resident at the
    moment the add is applied — the only adds the sequential Get pipeline
    performs, since it populates only after a cache miss — the tracked
    byte total always equals the sum over the currently resident entries
    of (key length + value length).  An add whose key is already resident
    breaks the invariant (see the counterexample). -/
theorem bytes_accounting_fresh_adds :
    ∀ (ops : List CacheOp) (c : cache), bytesInv c → freshAdds c ops = true →
      bytesInv (applyOps c ops) := by
  intro ops
  induction ops with
  | nil => intro c h _; exact h
  | cons op rest ih =>
    intro c h1 h2
    cases op with
    | add k v =>
      rw [freshAdds, Bool.and_eq_true] at h2
      obtain ⟨ha, hb⟩ := h2
      have hres : c.resident k = false := by
        simp only [Bool.not_eq_true'] at ha
        exact ha
      rw [applyOps]
      exact ih _ (add_fresh_inv c k v hres h1) hb
    | get k =>
      simp only [freshAdds, Bool.and_eq_true, true_and] at h2
      rw [applyOps]
      exact ih _ (get_inv c k h1) h2
    | removeOldest =>
      simp only [freshAdds, Bool.and_eq_true, true_and] at h2
      rw [applyOps]
      exact ih _ (removeOldest_inv c h1) h2

theorem bytes_accounting_fresh_adds_witness :
    bytesInv cache.empty ∧
    freshAdds cache.empty
      [CacheOp.add [1] { b := none, s := [7] }, CacheOp.get [1],
       CacheOp.add [2, 2] { b := none, s := [8, 8] }, CacheOp.removeOldest] = true ∧
    bytesInv (applyOps cache.empty
      [CacheOp.add [1] { b := none, s := [7] }, CacheOp.get [1],
       CacheOp.add [2, 2] { b := none, s := [8, 8] }, CacheOp.removeOldest]) :=
  ⟨by decide, by decide,
   bytes_accounting_fresh_adds
     [CacheOp.add [1] { b := none, s := [7] }, CacheOp.get [1],
      CacheOp.add [2, 2] { b := none, s := [8, 8] }, CacheOp.removeOldest]
     cache.empty (by decide) (by decide)⟩

/-- C3: for every Store whose byte budget is positive, populateCache
    terminates (the eviction loop cannot run forever) and on return the
    tracked byte total is at most the configured budget.  The two state
    hypotheses — the byte-accounting invariant and the tracked total being
    within budget — hold of every quiescent Store state the sequential API
    reaches: NewStore starts with a zeroed wrapper, the Get pipeline adds
    only keys that just missed the cache (so the accounting invariant is
    preserved), and populateCache itself re-establishes the budget bound. -/
theorem populateCache_terminates (s : Store) (key : GoStr) (value : ByteView)
    (h1 : 0 < s.cacheBytes) (h2 : bytesInv s.cache)
    (h3 : s.cache.nbytes ≤ s.cacheBytes) :
    ∃ s1, s.populateCache key value = some s1 ∧ s1.cache.nbytes ≤ s.cacheBytes := by
  have hex : (s.cache.add key value).nbytes - sumBytes (s.cache.add key value) ≤
      s.cacheBytes :=
    add_excess s.cache key value s.cacheBytes h2 h3 (by omega)
  obtain ⟨c1, hc1, hc1b, _⟩ := cacheTrimFuel_ok s.cacheBytes
    ((s.cache.add key value).size + 1) (s.cache.add key value) (by omega) hex
  refine ⟨{ s with cache := c1 }, ?_, hc1b⟩
  rw [Store.populateCache, if_neg (by omega)]
  rw [cacheTrim, hc1]
  rfl

theorem populateCache_terminates_witness :
    ((0 : Int) < (Store.new 3).cacheBytes ∧ bytesInv (Store.new 3).cache ∧
     (Store.new 3).cache.nbytes ≤ (Store.new 3).cacheBytes) ∧
    ∃ s1, (Store.new 3).populateCache [1] { b := none, s := [7, 7, 7] } = some s1 ∧
      s1.cache.nbytes ≤ (Store.new 3).cacheBytes :=
  ⟨⟨by decide, by decide, by decide⟩,
   populateCache_terminates (Store.new 3) [1] { b := none, s := [7, 7, 7] }
     (by decide) (by decide) (by decide)⟩

theorem Get_budget_nonpos (s : Store) (loader : GoStr → Except GoErr ByteView)
    (key : GoStr) (h1 : s.cacheBytes ≤ 0) (h2 : s.flight = []) :
    ∃ e s1, s.Get loader key false = some (e, true, s1) ∧
      s1.cache = s.cache ∧ s1.cacheBytes = s.cacheBytes ∧ s1.flight = [] := by
  obtain ⟨cb, cc, fl, stt⟩ := s
  simp only at h1 h2
  subst h2
  cases hld : loader key with
  | error e =>
    refine ⟨some e,
      { cacheBytes := cb, cache := cc, flight := [],
        stats := { Gets := stt.Gets + 1, CacheHits := stt.CacheHits,
                   Loads := stt.Loads + 1, LoadsDeduped := stt.LoadsDeduped + 1,
                   LocalLoadErrs := stt.LocalLoadErrs + 1,
                   LocalLoads := stt.LocalLoads } }, ?_, rfl, rfl, rfl⟩
    simp only [Store.Get, Store.lookupCache, Store.load, singleflightDo, Store.populateCache,
      sfRemove, hld, if_pos h1, List.not_mem_nil, if_neg, ite_false, if_false]
    simp [sfRemove]
  | ok v =>
    refine ⟨none,
      { cacheBytes := cb, cache := cc, flight := [],
        stats := { Gets := stt.Gets + 1, CacheHits := stt.CacheHits,
                   Loads := stt.Loads + 1, LoadsDeduped := stt.LoadsDeduped + 1,
                   LocalLoadErrs := stt.LocalLoadErrs,
                   LocalLoads := stt.LocalLoads + 1 } }, ?_, rfl, rfl, rfl⟩
    simp only [Store.Get, Store.lookupCache, Store.load, singleflightDo, Store.populateCache,
      sfRemove, hld, if_pos h1, List.not_mem_nil, if_neg, ite_false, if_false]
    simp [sfRemove]

/-- C4: for every Store whose byte budget is ≤ 0 the cache is never
    consulted or populated: lookupCache always reports not found leaving
    the Store (including the wrapper get counter) untouched,
    populateCache leaves the Store unchanged, and for any sequence of
    sequential Get calls every Get invokes the loader (the returned count
    equals the number of calls) and the cache wrapper is left exactly as
    it started — in particular a fresh store keeps items() = 0. -/
theorem budget_nonpos_disables_cache (s : Store)
    (loader : GoStr → Except GoErr ByteView)
    (h1 : s.cacheBytes ≤ 0) (h2 : s.flight = []) :
    (∀ key, s.lookupCache key = (none, s)) ∧
    (∀ key value, s.populateCache key value = some s) ∧
    ∀ keys, ∃ s1, s.runGets loader keys = some (s1, keys.length) ∧
      s1.cache = s.cache := by
  refine ⟨?_, ?_, ?_⟩
  · intro key
    rw [Store.lookupCache, if_pos h1]
  · intro key value
    rw [Store.populateCache, if_pos h1]
  · intro keys
    induction keys generalizing s with
    | nil => exact ⟨s, rfl, rfl⟩
    | cons k ks ih =>
      obtain ⟨e, s1, hget, hc, hcb, hfl⟩ := Get_budget_nonpos s loader k h1 h2
      obtain ⟨s2, hrun, hc2⟩ := ih s1 (by rw [hcb]; exact h1) hfl
      refine ⟨s2, ?_, by rw [hc2, hc]⟩
      rw [Store.runGets]
      simp [hget, hrun, Nat.add_comm]

theorem budget_nonpos_disables_cache_witness :
    ((Store.new 0).cacheBytes ≤ 0 ∧ (Store.new 0).flight = []) ∧
    (∃ s1, (Store.new 0).runGets (fun _ => .ok { b := none, s := [7] }) [[5], [6], [5]] =
      some (s1, 3) ∧ s1.cache = (Store.new 0).cache) :=
  ⟨⟨by decide, rfl⟩,
   (budget_nonpos_disables_cache (Store.new 0) (fun _ => .ok { b := none, s := [7] })
     (by decide) rfl).2.2 [[5], [6], [5]]⟩

theorem cache_get_nbytes (c : cache) (key : GoStr) : (c.get key).2.nbytes = c.nbytes := by
  cases hl : c.lru with
  | none => simp only [cache.get, hl]
  | some l =>
    cases hx : lruExtract l.entries key with
    | none => simp only [cache.get, LruCache.Get, hl, hx]
    | some p =>
      obtain ⟨v, rest⟩ := p
      simp only [cache.get, LruCache.Get, hl, hx]

theorem cache_get_not_resident (c : cache) (key : GoStr)
    (h : c.resident key = false) :
    c.get key = (none, { c with nget := c.nget + 1 }) := by
  cases hl : c.lru with
  | none => simp only [cache.get, hl]
  | some l =>
    cases hx : lruExtract l.entries key with
    | none => simp only [cache.get, LruCache.Get, hl, hx]
    | some p =>
      simp only [cache.resident, hl, hx, Option.isSome_some] at h
      exact absurd h (by decide)

theorem cache_get_none (c : cache) (key : GoStr) (c1 : cache)
    (h : c.get key = (none, c1)) :
    c1 = { c with nget := c.nget + 1 } ∧ c.resident key = false := by
  cases hl : c.lru with
  | none =>
    simp only [cache.get, hl, Prod.mk.injEq] at h
    exact ⟨h.2.symm, by simp [cache.resident, hl]⟩
  | some l =>
    cases hx : lruExtract l.entries key with
    | none =>
      simp only [cache.get, LruCache.Get, hl, hx, Prod.mk.injEq] at h
      exact ⟨h.2.symm, by simp [cache.resident, hl, hx]⟩
    | some p =>
      obtain ⟨v, rest⟩ := p
      simp only [cache.get, LruCache.Get, hl, hx, Prod.mk.injEq] at h
      exact absurd h.1 (by simp)

/-- Supporting theorem for the quiescent-state hypotheses used by the
    populateCache claims: from any quiescent Store state — exact byte
    accounting, tracked total within the positive budget, empty
    singleflight registry — a sequential Get always returns (in
    particular the eviction loop terminates) and re-establishes all three
    properties.  Together with the zeroed state produced by NewStore this
    shows the hypotheses hold of every sequentially reachable Store. -/
theorem Get_preserves_quiescent (s : Store) (loader : GoStr → Except GoErr ByteView)
    (key : GoStr) (dn : Bool) (hpos : 0 < s.cacheBytes)
    (h1 : bytesInv s.cache) (h2 : s.cache.nbytes ≤ s.cacheBytes) (h3 : s.flight = []) :
    ∃ e inv s1, s.Get loader key dn = some (e, inv, s1) ∧
      bytesInv s1.cache ∧ s1.cache.nbytes ≤ s.cacheBytes ∧ s1.flight = [] ∧
      s1.cacheBytes = s.cacheBytes := by
  obtain ⟨cb, cc, fl, stt⟩ := s
  simp only at h1 h2 h3 hpos ⊢
  subst h3
  have hno : ¬ cb ≤ 0 := by omega
  cases dn with
  | true =>
    exact ⟨some "store: nil dest Sink", false, _, rfl, h1, h2, rfl, rfl⟩
  | false =>
    rcases hq : cc.get key with ⟨r1, c1⟩
    cases r1 with
    | some v =>
      refine ⟨none, false,
        { cacheBytes := cb, cache := c1, flight := [],
          stats := { Gets := stt.Gets + 1, CacheHits := stt.CacheHits + 1,
                     Loads := stt.Loads, LoadsDeduped := stt.LoadsDeduped,
                     LocalLoadErrs := stt.LocalLoadErrs, LocalLoads := stt.LocalLoads } },
        ?_, ?_, ?_, rfl, rfl⟩
      · simp [Store.Get, Store.lookupCache, hno, hq]
      · have hg := get_inv cc key h1
        rw [hq] at hg
        exact hg
      · have hnb := cache_get_nbytes cc key
        rw [hq] at hnb
        simp only at hnb
        show c1.nbytes ≤ cb
        omega
    | none =>
      obtain ⟨hc1, hres⟩ := cache_get_none cc key c1 hq
      subst hc1
      have hres1 : ({ cc with nget := cc.nget + 1 } : cache).resident key = false := hres
      have hget2 := cache_get_not_resident { cc with nget := cc.nget + 1 } key hres1
      cases hld : loader key with
      | error e =>
        refine ⟨some e, true,
          { cacheBytes := cb, cache := { cc with nget := cc.nget + 1 + 1 }, flight := [],
            stats := { Gets := stt.Gets + 1, CacheHits := stt.CacheHits,
                       Loads := stt.Loads + 1, LoadsDeduped := stt.LoadsDeduped + 1,
                       LocalLoadErrs := stt.LocalLoadErrs + 1,
                       LocalLoads := stt.LocalLoads } },
          ?_, h1, h2, rfl, rfl⟩
        simp only [Store.Get, Store.lookupCache, Store.load, singleflightDo, sfRemove,
          if_neg hno, hq, hget2, hld, List.not_mem_nil, if_neg, ite_false, if_false]
        simp [sfRemove]
      | ok v =>
        have hinv2 : bytesInv ({ cc with nget := cc.nget + 1 + 1 } : cache) := h1
        have hres2 : ({ cc with nget := cc.nget + 1 + 1 } : cache).resident key = false := hres
        have haddinv := add_fresh_inv _ key v hres2 hinv2
        have hex : (({ cc with nget := cc.nget + 1 + 1 } : cache).add key v).nbytes -
            sumBytes (({ cc with nget := cc.nget + 1 + 1 } : cache).add key v) ≤ cb := by
          unfold bytesInv at haddinv
          omega
        obtain ⟨c3, hc3, hc3b, hc3e⟩ := cacheTrimFuel_ok cb
          ((({ cc with nget := cc.nget + 1 + 1 } : cache).add key v).size + 1)
          (({ cc with nget := cc.nget + 1 + 1 } : cache).add key v) (by omega) hex
        have hc3inv : bytesInv c3 := by
          unfold bytesInv at haddinv ⊢
          omega
        refine ⟨none, true,
          { cacheBytes := cb, cache := c3, flight := [],
            stats := { Gets := stt.Gets + 1, CacheHits := stt.CacheHits,
                       Loads := stt.Loads + 1, LoadsDeduped := stt.LoadsDeduped + 1,
                       LocalLoadErrs := stt.LocalLoadErrs,
                       LocalLoads := stt.LocalLoads + 1 } },
          ?_, hc3inv, hc3b, rfl, rfl⟩
        simp only [Store.Get, Store.lookupCache, Store.load, Store.populateCache,
          singleflightDo, cacheTrim, sfRemove, if_neg hno, hq, hget2, hld, hc3,
          List.not_mem_nil, if_neg, ite_false, if_false]
        simp [sfRemove]
